import Mathlib

/-!
Verification of the path/import utilities of the `compilers` repository
(`src/utils.rs`): lexical path cleaning, Solidity import resolution
(library roots and absolute-from-ancestor), import/pragma text scanning,
and library link-placeholder generation.

The embedding models filesystem paths the way Rust's `std::path` presents
them on Unix: a path is a list of components (`RootDir`, `CurDir`,
`ParentDir`, `Normal`).  Windows `Prefix` components do not occur in the
Unix path model and are not modelled.  Filesystem existence
(`Path::exists` / `fs::metadata`) is abstracted as a boolean predicate on
paths, passed explicitly to every function that touches the filesystem in
the source.
-/

namespace Compilers

/-- One component of a filesystem path, mirroring Rust's
`std::path::Component` in the Unix model (no `Prefix` on Unix). -/
inductive Component where
  | rootDir : Component
  | curDir : Component
  | parentDir : Component
  | normal : String → Component
deriving DecidableEq, Repr

/-- A path, as the list of its components (what `Path::components()` yields). -/
abbrev PathC := List Component

/-- `PathBuf::push` / `Path::join` at the component level: pushing an
absolute path (one starting with the root) replaces the receiver,
otherwise the components are appended. -/
def pjoin (a b : PathC) : PathC :=
  if b.head? = some Component.rootDir then b else a ++ b

/-- `Path::parent`: `None` for the empty path and for the bare root,
otherwise the path minus its last component. -/
def parent? : PathC → Option PathC
  | [] => none
  | [Component.rootDir] => none
  | p => some p.dropLast

/-- One step of `clean_solidity_path`'s loop (`src/utils.rs`,
`clean_solidity_path`): prefix/root/normal components are pushed; `.` is
dropped; `..` pops the previous component exactly when that previous
component is a `Normal`, and is pushed unchanged otherwise. -/
def cleanStep (acc : PathC) (c : Component) : PathC :=
  match c with
  | Component.rootDir => acc ++ [c]
  | Component.normal s => acc ++ [Component.normal s]
  | Component.curDir => acc
  | Component.parentDir =>
    match acc.getLast? with
    | some (Component.normal _) => acc.dropLast
    | _ => acc ++ [Component.parentDir]

/-- `clean_solidity_path` (`src/utils.rs`): lexically clean a path by
folding `cleanStep` over its components, left to right, starting from an
empty output.  Pure: no filesystem access. -/
def clean_solidity_path (p : PathC) : PathC :=
  p.foldl cleanStep []

/-! ### Parsing a path string into components (Rust `Path::components()`, Unix)

Rust's component iterator already performs part of the normalization:
repeated separators collapse, a trailing separator is dropped, and `.`
components are dropped except a `.` that begins a relative path. -/

/-- Split a character list on `/`, keeping empty pieces. -/
def splitSlash : List Char → List Char → List (List Char)
  | [], acc => [acc.reverse]
  | c :: t, acc =>
    if c = '/' then acc.reverse :: splitSlash t [] else splitSlash t (c :: acc)

/-- Map one non-empty piece between separators to a component; `.` pieces
are normalized away by the iterator (the leading-`.` case is handled in
`parsePath`). -/
def pieceToComp (piece : List Char) : Option Component :=
  if piece = [] then none
  else if piece = ['.'] then none
  else if piece = ['.', '.'] then some Component.parentDir
  else some (Component.normal (String.mk piece))

/-- `Path::new(s).components()` in the Unix model: a leading `/` gives
`RootDir`; a relative path literally beginning with `.` (alone or before a
separator) keeps that one `CurDir`; all other pieces map through
`pieceToComp`. -/
def parsePath (s : String) : PathC :=
  let cs := s.toList
  let pieces := splitSlash cs []
  let hasRoot := cs.head? = some '/'
  let curDirLead :=
    ¬hasRoot ∧ (cs = ['.'] ∨ (cs.head? = some '.' ∧ cs.tail.head? = some '/'))
  let lead : PathC :=
    if hasRoot then [Component.rootDir]
    else if curDirLead then [Component.curDir] else []
  let body :=
    if curDirLead then pieces.drop 1 else pieces
  lead ++ body.filterMap pieceToComp

/-- Does the rendered buffer end with a separator?  (Kernel-friendly
replacement for `String::ends_with("/")`.) -/
def endsSep (acc : String) : Bool :=
  acc.toList.getLast? = some '/'

/-- `PathBuf::push` of a single component onto a rendered string buffer
(used by `Iterator::collect::<PathBuf>()`). -/
def pushComp (acc : String) (c : Component) : String :=
  match c with
  | Component.rootDir => "/"
  | Component.curDir =>
    if acc = "" then "." else if endsSep acc then acc ++ "." else acc ++ "/."
  | Component.parentDir =>
    if acc = "" then ".." else if endsSep acc then acc ++ ".." else acc ++ "/.."
  | Component.normal s =>
    if acc = "" then s else if endsSep acc then acc ++ s else acc ++ "/" ++ s

/-- `components.iter().collect::<PathBuf>()`: fold `PathBuf::push` over the
components, starting from the empty buffer. -/
def renderPath (p : PathC) : String :=
  p.foldl pushComp ""

/-- Clean a path given as a string and render the result, exactly as the
repository's unit test `can_clean_solidity_path` observes
`clean_solidity_path` (it compares the collected `PathBuf` with a literal). -/
def cleanPathString (s : String) : String :=
  renderPath (clean_solidity_path (parsePath s))

/-! ### Normalizer output invariant (spec §3 NormalizedPath) -/

/-- Is the component a plain named (`Normal`) segment? -/
def Component.isNormal : Component → Bool
  | Component.normal _ => true
  | _ => false

/-- No current-directory component occurs in the path. -/
def noCur (p : PathC) : Bool :=
  p.all fun c => !(decide (c = Component.curDir))

/-- May `b` directly follow `a` in a lexically cleaned path?  Forbidden
exactly when `a` is a plain named segment and `b` is `..`. -/
def pairOk (a b : Component) : Bool :=
  !(a.isNormal && decide (b = Component.parentDir))

/-- Every adjacent pair of components satisfies `pairOk`: no `..`
immediately follows a plain named segment. -/
def pairsOk : PathC → Bool
  | a :: b :: t => pairOk a b && pairsOk (b :: t)
  | _ => true

/-- `pairOk` against an optional preceding component (none = start of path). -/
def pairOkLast : Option Component → Component → Bool
  | some a, b => pairOk a b
  | none, _ => true

/-! ### Filesystem abstraction and import resolution -/

/-- An abstract filesystem: which paths exist (`Path::exists` /
`fs::metadata(..).is_ok()`).  The source only ever asks this question of
the filesystem during resolution, so resolution is a pure function of this
predicate and its path arguments. -/
abbrev FS := PathC → Bool

/-- `normalize_solidity_import_path` (`src/utils.rs`): join the import
path onto the directory, lexically clean the result, and return it when it
exists in the filesystem; an I/O error (modelled as `none`) otherwise.
(`dunce::simplified` and `to_slash_lossy` are identities in the Unix
model.) -/
def normalize_solidity_import_path (fs : FS) (directory import_path : PathC) :
    Option PathC :=
  let original := pjoin directory import_path
  let cleaned := clean_solidity_path original
  if fs cleaned then some cleaned else none

/-- The per-root loop of `resolve_library` (`src/utils.rs`): for each lib
root in order, first try the import joined directly onto the root, then
`<root>/<first_dir>/src/<rest>` where `rest` is the import with its first
component stripped. -/
def resolve_library_loop (fs : FS) (source : PathC) (first_dir : String)
    (rest : PathC) : List PathC → Option PathC
  | [] => none
  | lib :: libs =>
    let contract := pjoin lib source
    if fs contract then some contract
    else
      let contract2 :=
        pjoin (pjoin (pjoin lib [Component.normal first_dir])
          [Component.normal "src"]) rest
      if fs contract2 then some contract2
      else resolve_library_loop fs source first_dir rest libs

/-- `resolve_library` (`src/utils.rs`): dispatch on the first component of
the source path.  A plain name searches the library roots; a root marker
returns the source itself (already absolute); anything else (empty path,
`.`/`..` first component) is not a library import (`None`). -/
def resolve_library (fs : FS) (libs : List PathC) (source : PathC) :
    Option PathC :=
  match source with
  | [] => none
  | Component.normal first_dir :: rest =>
    resolve_library_loop fs (Component.normal first_dir :: rest) first_dir rest libs
  | Component.rootDir :: _ => some source
  | _ => none

/-- `is_local_source_name` (`src/utils.rs`): a source is a local or
relative import exactly when library resolution fails. -/
def is_local_source_name (fs : FS) (libs : List PathC) (source : PathC) : Bool :=
  (resolve_library fs libs source).isNone

/-- The candidate list that the spec's words for library resolution
describe: for each root in configured order, the import joined directly
onto the root, then the import's first component joined onto the root
followed by the fixed `src` subdirectory and the remainder of the import. -/
def libraryCandidates (libs : List PathC) (source : PathC) (first_dir : String)
    (rest : PathC) : List PathC :=
  libs.flatMap fun lib =>
    [pjoin lib source,
     pjoin (pjoin (pjoin lib [Component.normal first_dir])
       [Component.normal "src"]) rest]

/-- The `while parent != root` loop of `resolve_absolute_library`
(`src/utils.rs`): starting from a candidate ancestor, stop (without
trying) when the ancestor equals the root; otherwise try to normalize
the import against it, returning the ancestor and the normalized path on
success, and moving to the ancestor's parent (stopping when there is
none) on failure. -/
def resolve_absolute_walk (fs : FS) (root imp : PathC) (par : PathC) :
    Option (PathC × PathC) :=
  if par = root then none
  else
    match normalize_solidity_import_path fs par imp with
    | some n => some (par, n)
    | none =>
      match h : parent? par with
      | none => none
      | some q => resolve_absolute_walk fs root imp q
termination_by par.length
decreasing_by
  simp only [parent?] at h
  split at h
  · exact absurd h (by simp)
  · exact absurd h (by simp)
  · cases h
    rename_i hne _
    have : par ≠ [] := by intro hc; subst hc; exact hne rfl
    simpa [List.length_dropLast] using Nat.sub_lt (List.length_pos.mpr this) one_pos

/-- `resolve_absolute_library` (`src/utils.rs`): start the walk at the
working directory's parent (`cwd.parent()?`). -/
def resolve_absolute_library (fs : FS) (root cwd imp : PathC) :
    Option (PathC × PathC) :=
  match parent? cwd with
  | none => none
  | some par => resolve_absolute_walk fs root imp par

/-- The ancestors the walk visits, in order: the chain obtained by
repeatedly taking parents starting from `par`, cut off (exclusively)
at the first ancestor equal to `root`, or when the chain runs out. -/
def ancestorsUpTo (root : PathC) (par : PathC) : List PathC :=
  if par = root then []
  else
    match h : parent? par with
    | none => [par]
    | some q => par :: ancestorsUpTo root q
termination_by par.length
decreasing_by
  simp only [parent?] at h
  split at h
  · exact absurd h (by simp)
  · exact absurd h (by simp)
  · cases h
    rename_i hne _
    have : par ≠ [] := by intro hc; subst hc; exact hne rfl
    simpa [List.length_dropLast] using Nat.sub_lt (List.length_pos.mpr this) one_pos

/-- First ancestor in a list at which the import normalizes to an existing
path, paired with that normalized path (the spec's words for absolute
resolution: "the first ancestor for which the normalized joined path
exists wins; return both that ancestor and the resolved normalized
path"). -/
def firstHit (fs : FS) (imp : PathC) : List PathC → Option (PathC × PathC)
  | [] => none
  | a :: t =>
    match normalize_solidity_import_path fs a imp with
    | some n => some (a, n)
    | none => firstHit fs imp t

/-- The full ancestor chain a call to `resolve_absolute_library` can
visit: nothing if `cwd` has no parent, else the chain from the parent. -/
def ancestorChain (root cwd : PathC) : List PathC :=
  match parent? cwd with
  | none => []
  | some par => ancestorsUpTo root par

/-! ### Statement scanner

The source matches raw text against two compiled patterns
(`RE_SOL_PRAGMA_VERSION` and `RE_SOL_IMPORT`, `src/utils.rs`).  The
patterns are modelled here by hand-rolled matchers that follow the
patterns' structure token by token, with the regex crate's leftmost-first
semantics (greedy `.*`, lazy `.+?`, `.` matching everything but `\n`,
alternations preferring the left branch).  `\s` and `\w` are modelled on
their ASCII subsets (the scanned fixtures are ASCII). -/

/-- The double-quote and single-quote characters (written by code point to
keep string literals free of quote characters). -/
def dqChar : Char := Char.ofNat 34

/-- Single quote. -/
def sqChar : Char := Char.ofNat 39

/-- `\s` (ASCII subset: space, tab, newline, carriage return, vertical
tab, form feed). -/
def isWs (c : Char) : Bool :=
  c = ' ' || c = '\t' || c = '\n' || c = '\x0d' || c = '\x0b' || c = '\x0c'

/-- `\w` (ASCII subset: letters, digits, underscore), by code point. -/
def isWord (c : Char) : Bool :=
  let n := c.toNat
  (97 ≤ n && n ≤ 122) || (65 ≤ n && n ≤ 90) || (48 ≤ n && n ≤ 57) || n = 95

/-- Match a literal string, returning the remainder. -/
def dropLit : List Char → List Char → Option (List Char)
  | [], s => some s
  | _ :: _, [] => none
  | l :: lt, c :: t => if l = c then dropLit lt t else none

/-- Split off the maximal leading run of `\s` characters: `(run, rest)`. -/
def wsSplit : List Char → List Char × List Char
  | [] => ([], [])
  | c :: t =>
    if isWs c then
      let (r, rest) := wsSplit t
      (c :: r, rest)
    else ([], c :: t)

/-- `\s+` followed by a token that cannot begin with whitespace: the
maximal whitespace run is the only viable parse.  `none` when the run is
empty. -/
def wsPlus (s : List Char) : Option (List Char) :=
  match wsSplit s with
  | ([], _) => none
  | (_ :: _, rest) => some rest

/-- `\s*`: skip the maximal whitespace run. -/
def wsStar (s : List Char) : List Char := (wsSplit s).2

/-- `\w+` followed by a token that cannot begin with a word character:
the maximal word run is the only viable parse. -/
def wordPlus : List Char → Option (List Char)
  | [] => none
  | c :: t =>
    if isWord c then
      some (match wordPlus t with
            | some r => r
            | none => t)
    else none

/-- Lazy scan for `(?P<cap>.+-or-.*)(;)`: the characters before the first
`;`, failing if a `\n` intervenes (`.` does not match `\n`): returns the
captured characters and the remainder after the `;`. -/
def findSemi : List Char → Option (List Char × List Char)
  | [] => none
  | c :: t =>
    if c = ';' then some ([], t)
    else if c = '\n' then none
    else (findSemi t).map fun vr => (c :: vr.1, vr.2)

/-- `RE_SOL_PRAGMA_VERSION` = `pragma\s+solidity\s+(?P<version>.+?);`
matched at the start of `s`, returning the `version` capture.

The only backtracking the pattern allows is between the second `\s+`
(greedy) and `.+?` (lazy): with the maximal whitespace run `r2` consumed,
the lazy part takes everything up to the first `;` (no `\n` allowed); when
that leaves the capture empty (a `;` immediately follows the run), the
`\s+` gives back exactly one whitespace character - which must not be
`\n`, since `.` cannot match it - so the capture is that single
character. -/
def pragmaAt (s : List Char) : Option (List Char) := do
  let s1 ← dropLit "pragma".toList s
  let s2 ← wsPlus s1
  let s3 ← dropLit "solidity".toList s2
  let (r2, s4) := wsSplit s3
  if r2 = [] then none
  else
    match findSemi s4 with
    | none => none
    | some (v, _) =>
      match v with
      | _ :: _ => some v
      | [] =>
        match r2.getLast? with
        | some w => if r2.length ≥ 2 && !(w = '\n') then some [w] else none
        | none => none

/-- Leftmost match: try `pragmaAt` at every position, left to right
(`Regex::captures` returns the leftmost match). -/
def pragmaScan : List Char → Option (List Char)
  | [] => none
  | s@(_ :: t) =>
    match pragmaAt s with
    | some v => some v
    | none => pragmaScan t

/-- `find_version_pragma` (`src/utils.rs`): the `version` capture of the
first match of `RE_SOL_PRAGMA_VERSION`, if any. -/
def find_version_pragma (contract : String) : Option String :=
  (pragmaScan contract.toList).map String.mk

/-! #### The import statement pattern

`RE_SOL_IMPORT` =
`import\s+(?:(?:"(?P<p1>.*)"|'(?P<p2>.*)')(?:\s+as\s+\w+)?|(?:(?:\w+(?:\s+as\s+\w+)?|\*\s+as\s+\w+|\{\s*(?:\w+(?:\s+as\s+\w+)?(?:\s*,\s*)?)+\s*\})\s+from\s+(?:"(?P<p3>.*)"|'(?P<p4>.*)')))\s*;` -/

/-- The four optional capture groups of `RE_SOL_IMPORT` (named `p1`..`p4`
in the source: double- or single-quoted path of a plain import, double- or
single-quoted path of a `from`-form import). -/
structure ImportCaps where
  p1 : Option String
  p2 : Option String
  p3 : Option String
  p4 : Option String
deriving DecidableEq, Repr

/-- All ways to read `s` as `content ++ [q] ++ rest` with `content` free
of `\n` (the candidate parses of `.*` followed by the closing quote `q`),
in order of increasing content length. -/
def quoteSplits (q : Char) : List Char → List (List Char × List Char)
  | [] => []
  | c :: t =>
    (if c = q then [(([] : List Char), t)] else []) ++
      (if c = '\n' then []
       else (quoteSplits q t).map fun vr => (c :: vr.1, vr.2))

/-- Greedy `.*` before a closing quote: among the candidate contents, pick
the longest whose continuation `cont` succeeds, returning the content and
the continuation's output. -/
def quotedGreedy (q : Char) (cont : List Char → Option (List Char))
    (s : List Char) : Option (List Char × List Char) :=
  (quoteSplits q s).reverse.findSome? fun vr =>
    (cont vr.2).map fun r => (vr.1, r)

/-- `\s+as\s+\w+` (the alias clause). -/
def asClause (s : List Char) : Option (List Char) := do
  let s1 ← wsPlus s
  let s2 ← dropLit "as".toList s1
  let s3 ← wsPlus s2
  wordPlus s3

/-- `\s*;`: the terminator of the whole import statement. -/
def semiTail (s : List Char) : Option (List Char) :=
  match wsStar s with
  | c :: t => if c = ';' then some t else none
  | [] => none

/-- `(?:\s+as\s+\w+)?\s*;` - the continuation after the closing quote in
the plain (branch-A) form: greedy optional alias clause, then the
terminator, backtracking to the skipped alias when needed. -/
def afterQuoteA (s : List Char) : Option (List Char) :=
  match asClause s with
  | some s1 =>
    match semiTail s1 with
    | some r => some r
    | none => semiTail s
  | none => semiTail s

/-- Branch A of the outer alternation:
`(?:"(?P<p1>.*)"|'(?P<p2>.*)')(?:\s+as\s+\w+)?` followed by the shared
`\s*;`. -/
def branchA (s : List Char) : Option (ImportCaps × List Char) :=
  match s with
  | c :: t =>
    if c = dqChar then
      (quotedGreedy dqChar afterQuoteA t).map fun vr =>
        (⟨some (String.mk vr.1), none, none, none⟩, vr.2)
    else if c = sqChar then
      (quotedGreedy sqChar afterQuoteA t).map fun vr =>
        (⟨none, some (String.mk vr.1), none, none⟩, vr.2)
    else none
  | [] => none

/-- `(?:\s*,\s*)?` after a braces-list item: present exactly when a comma
follows the whitespace. -/
def optComma (s : List Char) : Option (List Char) :=
  match wsStar s with
  | c :: t => if c = ',' then some (wsStar t) else none
  | [] => none

/-- `\s*\}`: the close of the braces list. -/
def closeCurly (s : List Char) : Option (List Char) :=
  match wsStar s with
  | c :: t => if c = Char.ofNat 125 then some t else none
  | [] => none

/-- `(?:\w+(?:\s+as\s+\w+)?(?:\s*,\s*)?)+\s*\}` - one or more items, each
a word with optional alias and optional trailing comma, then the close.
After an item without a comma, no further item can start (the next
character is not a word character), so the repetition ends; after a comma
the repetition continues exactly when a word character follows.  Each loop
iteration consumes at least one character (the item's word and the comma),
so fuel equal to the text length never runs out. -/
def curlyItems : Nat → List Char → Option (List Char)
  | 0, _ => none
  | fuel + 1, s => do
    let s1 ← wordPlus s
    let s2 :=
      match asClause s1 with
      | some s2 => s2
      | none => s1
    match optComma s2 with
    | some s3 =>
      match s3 with
      | c :: _ => if isWord c then curlyItems fuel s3 else closeCurly s3
      | [] => closeCurly s3
    | none => closeCurly s2

/-- The head of a `from`-form import:
`\w+(?:\s+as\s+\w+)?|\*\s+as\s+\w+|\{\s*items\}` (alternation, left
preferred; the branches start with a word character, `*`, `{`
respectively, so at most one can apply). -/
def importHead (s : List Char) : Option (List Char) :=
  match s with
  | c :: t =>
    if isWord c then
      match wordPlus s with
      | some s1 =>
        match asClause s1 with
        | some s2 => some s2
        | none => some s1
      | none => none
    else if c = '*' then asClause t
    else if c = Char.ofNat 123 then curlyItems (wsStar t).length (wsStar t)
    else none
  | [] => none

/-- `\s+from\s+`. -/
def fromPart (s : List Char) : Option (List Char) := do
  let s1 ← wsPlus s
  let s2 ← dropLit "from".toList s1
  wsPlus s2

/-- Branch B of the outer alternation: head, `\s+from\s+`, then the quoted
path (`p3` double-quoted / `p4` single-quoted) and the shared `\s*;`. -/
def branchB (s : List Char) : Option (ImportCaps × List Char) := do
  let s1 ← importHead s
  let s2 ← fromPart s1
  match s2 with
  | c :: t =>
    if c = dqChar then
      (quotedGreedy dqChar semiTail t).map fun vr =>
        (⟨none, none, some (String.mk vr.1), none⟩, vr.2)
    else if c = sqChar then
      (quotedGreedy sqChar semiTail t).map fun vr =>
        (⟨none, none, none, some (String.mk vr.1)⟩, vr.2)
    else none
  | [] => none

/-- One attempt to match `RE_SOL_IMPORT` at the start of `s`: the literal
`import`, mandatory whitespace, then branch A (preferred) or branch B.
Returns the captures and the remainder after the match. -/
def matchImportAt (s : List Char) : Option (ImportCaps × List Char) := do
  let s1 ← dropLit "import".toList s
  let s2 ← wsPlus s1
  match branchA s2 with
  | some r => some r
  | none => branchB s2

/-- `Regex::captures_iter`: leftmost, non-overlapping matches, scanning
left to right.  Fuel bounds the scan by the text length (every match
consumes at least one character, so the fuel never runs out). -/
def scanImports : Nat → List Char → List ImportCaps
  | 0, _ => []
  | _ + 1, [] => []
  | n + 1, s@(_ :: t) =>
    match matchImportAt s with
    | some (caps, rest) => caps :: scanImports n rest
    | none => scanImports n t

/-- All capture groups of all matches of `RE_SOL_IMPORT` in the text. -/
def find_import_captures (contract : String) : List ImportCaps :=
  scanImports contract.toList.length contract.toList

/-- `find_import_paths` (`src/utils.rs`): for each match, the first
defined group among `p1`, `p2`, `p3`, `p4` (the `or_else` chain). -/
def find_import_paths (contract : String) : List String :=
  (find_import_captures contract).filterMap fun caps =>
    (((caps.p1.or caps.p2).or caps.p3).or caps.p4)

/-! ### Library hash placeholders

`library_hash` calls `alloy_primitives::keccak256` (the standard
Keccak-256: rate 1088 bits, capacity 512, multi-rate padding domain byte
`0x01`, 32-byte output) and truncates to 17 bytes;
`library_hash_placeholder` wraps the lowercase hex encoding of those 17
bytes in `$` delimiters.  Bytes are modelled as `Nat` values below 256;
64-bit lanes as `Nat` values reduced modulo `2^64`. -/

/-- Rotate a 64-bit lane left by `n` (0 ≤ n < 64). -/
def rotl64 (w n : Nat) : Nat :=
  ((w <<< n) % (2 ^ 64)) ||| (w >>> (64 - n))

/-- Lane `(x, y)` of a 25-lane state stored row-major (`index = x + 5*y`). -/
def lane (st : List Nat) (x y : Nat) : Nat :=
  st.getD (x + 5 * y) 0

/-- Keccak-f θ step. -/
def theta (st : List Nat) : List Nat :=
  let c := (List.range 5).map fun x =>
    lane st x 0 ^^^ lane st x 1 ^^^ lane st x 2 ^^^ lane st x 3 ^^^ lane st x 4
  let d := (List.range 5).map fun x =>
    c.getD ((x + 4) % 5) 0 ^^^ rotl64 (c.getD ((x + 1) % 5) 0) 1
  (List.range 25).map fun i => st.getD i 0 ^^^ d.getD (i % 5) 0

/-- Keccak-f ρ rotation offsets, indexed by `x + 5*y`, generated by the
FIPS 202 walk: starting from lane (1,0), lane `t` of the walk gets offset
`(t+1)(t+2)/2 mod 64` and the walk moves `(x,y) ↦ (y, 2x+3y mod 5)`. -/
def rhoOffsets : List Nat :=
  ((List.range 24).foldl
    (fun st t =>
      (st.1.set (st.2.1 + 5 * st.2.2) (((t + 1) * (t + 2) / 2) % 64),
        st.2.2, (2 * st.2.1 + 3 * st.2.2) % 5))
    (List.replicate 25 0, 1, 0)).1

/-- Keccak-f ρ and π steps combined: `B[y, 2x+3y] = rotl(A[x, y], r[x, y])`,
written from the target index `(u, v)` with `x = (3v + u) mod 5, y = u`. -/
def rhoPi (st : List Nat) : List Nat :=
  (List.range 25).map fun j =>
    let u := j % 5
    let v := j / 5
    let x := (3 * v + u) % 5
    rotl64 (lane st x u) (rhoOffsets.getD (x + 5 * u) 0)

/-- Keccak-f χ step: `A[x, y] = B[x, y] xor ((not B[x+1, y]) and B[x+2, y])`. -/
def chi (st : List Nat) : List Nat :=
  (List.range 25).map fun j =>
    let x := j % 5
    let y := j / 5
    lane st x y ^^^ ((lane st ((x + 1) % 5) y ^^^ (2 ^ 64 - 1)) &&&
      lane st ((x + 2) % 5) y)

/-- Keccak-f ι step: xor the round constant into lane (0,0). -/
def iotaStep (rc : Nat) : List Nat → List Nat
  | a :: t => (a ^^^ rc) :: t
  | [] => []

/-- One step of the FIPS 202 degree-8 LFSR (`x^8 + x^6 + x^5 + x^4 + 1`,
i.e. feedback mask `0x71` applied on overflow of an 8-bit shift). -/
def lfsrStep (r : Nat) : Nat :=
  let r2 := r <<< 1
  if r2 &&& 0x100 = 0 then r2 else (r2 ^^^ 0x171) &&& 0xff

/-- Bit `t` of the Keccak round-constant sequence: the low bit of the
LFSR state after `t` steps from 1. -/
def rcBit (t : Nat) : Nat :=
  (Nat.iterate lfsrStep t 1) &&& 1

/-- The 24 Keccak-f[1600] round constants: round `i` has bit `2^j - 1`
set to `rc(j + 7*i)` for `j = 0..6` (FIPS 202 §3.2.5). -/
def keccakRC : List Nat :=
  (List.range 24).map fun i =>
    (List.range 7).foldl
      (fun acc j => acc ||| (rcBit (j + 7 * i) <<< (2 ^ j - 1))) 0

/-- The Keccak-f[1600] permutation: 24 rounds of θ, ρπ, χ, ι. -/
def keccakF (st : List Nat) : List Nat :=
  keccakRC.foldl (fun s rc => iotaStep rc (chi (rhoPi (theta s)))) st

/-- Assemble a 64-bit lane from up to 8 bytes, little-endian. -/
def bytesToLane (bs : List Nat) : Nat :=
  bs.foldr (fun b acc => b + 256 * acc) 0

/-- Split a 64-bit lane into its 8 bytes, little-endian. -/
def laneToBytes (w : Nat) : List Nat :=
  (List.range 8).map fun k => (w >>> (8 * k)) &&& 255

/-- Absorb one 136-byte block: xor it into the first 17 lanes and permute. -/
def absorbBlock (st block : List Nat) : List Nat :=
  keccakF <| (List.range 25).map fun i =>
    st.getD i 0 ^^^ (if i < 17 then bytesToLane ((block.drop (8 * i)).take 8) else 0)

/-- Keccak multi-rate padding (`pad10*1` with domain byte `0x01`) for a
message of the given length, rate 136 bytes. -/
def keccakPad (len : Nat) : List Nat :=
  let q := 136 - len % 136
  if q = 1 then [0x81] else 0x01 :: (List.replicate (q - 2) 0 ++ [0x80])

/-- Split a byte list into 136-byte blocks (fuel-bounded structural
recursion so the kernel can evaluate it; every step consumes at least one
byte, so fuel equal to the length never runs out). -/
def blocks136Aux : Nat → List Nat → List (List Nat)
  | 0, _ => []
  | _ + 1, [] => []
  | fuel + 1, bs => bs.take 136 :: blocks136Aux fuel (bs.drop 136)

/-- Split a byte list into 136-byte blocks. -/
def blocks136 (bs : List Nat) : List (List Nat) :=
  blocks136Aux bs.length bs

/-- Keccak-256 of a byte sequence: absorb the padded message into the
all-zero state, then squeeze the first 32 bytes (lanes 0..3,
little-endian). -/
def keccak256 (msg : List Nat) : List Nat :=
  let padded := msg ++ keccakPad msg.length
  let final := (blocks136 padded).foldl absorbBlock (List.replicate 25 0)
  ((List.range 4).map fun i => laneToBytes (final.getD i 0)).flatten

/-- `library_hash` (`src/utils.rs`): the first 17 bytes of the keccak256
hash of the library name's bytes. -/
def library_hash (name : List Nat) : List Nat :=
  (keccak256 name).take 17

/-- One lowercase hex digit (code point 48 is `0`, 97 is `a`). -/
def hexDigit (n : Nat) : Char :=
  Char.ofNat (if n ≤ 9 then 48 + n else 87 + n)

/-- Two lowercase hex digits of one byte. -/
def hexByte (b : Nat) : List Char :=
  [hexDigit (b / 16), hexDigit (b % 16)]

/-- Lowercase hex encoding of a byte sequence (what
`hex::Buffer::<17, false>::format` produces: no prefix, lowercase). -/
def bytesToHex (bs : List Nat) : String :=
  String.mk (bs.flatMap hexByte)

/-- `library_hash_placeholder` (`src/utils.rs`): push `$`, the hex
encoding of `library_hash name`, and a closing `$`. -/
def library_hash_placeholder (name : List Nat) : String :=
  "$" ++ bytesToHex (library_hash name) ++ "$"

/-! ### Auxiliary definitions used only by the statements below -/

/-- Exactly one of the four capture groups is present. -/
def capsOne (c : ImportCaps) : Bool :=
  c.p1.isSome.toNat + c.p2.isSome.toNat + c.p3.isSome.toNat + c.p4.isSome.toNat = 1

/-- The repository's `can_find_import_paths` test document: a license
comment, a pragma, and four imports in mixed forms - plain double-quoted,
plain double-quoted, braces-`from` double-quoted, braces-`from`
single-quoted (quotes and braces written by code point). -/
def mixedImportDoc : String :=
  "//SPDX-License-Identifier: Unlicense\npragma solidity ^0.8.0;\nimport " ++
  dqChar.toString ++ "hardhat/console.sol" ++ dqChar.toString ++ ";\nimport " ++
  dqChar.toString ++ "../contract/Contract.sol" ++ dqChar.toString ++
  ";\nimport \x7b T \x7d from " ++
  dqChar.toString ++ "../Test.sol" ++ dqChar.toString ++
  ";\nimport \x7b T \x7d from " ++
  sqChar.toString ++ "../Test2.sol" ++ sqChar.toString ++ ";\n"

/-! ## Theorems -/

theorem getLast?_decomp {l : PathC} {x : Component} (h : l.getLast? = some x) :
    l = l.dropLast ++ [x] := by
  induction l with
  | nil => simp at h
  | cons a t ih =>
    cases t with
    | nil => simp at h; simp [h]
    | cons b t2 =>
      have h2 : (b :: t2).getLast? = some x := by
        simpa [List.getLast?_cons_cons] using h
      have hd : (a :: b :: t2).dropLast = a :: (b :: t2).dropLast := rfl
      rw [hd, List.cons_append, ← ih h2]

theorem pairsOk_cons_cons (a b : Component) (t : PathC) :
    pairsOk (a :: b :: t) = (pairOk a b && pairsOk (b :: t)) := rfl

theorem pairsOk_append_one (acc : PathC) (c : Component) :
    pairsOk (acc ++ [c]) = (pairsOk acc && pairOkLast acc.getLast? c) := by
  induction acc with
  | nil => simp [pairsOk, pairOkLast]
  | cons a t ih =>
    cases t with
    | nil => simp [pairsOk, pairOkLast, pairsOk_cons_cons]
    | cons b t2 =>
      have ihx : pairsOk (b :: (t2 ++ [c])) =
          (pairsOk (b :: t2) && pairOkLast (b :: t2).getLast? c) := ih
      show pairsOk (a :: b :: (t2 ++ [c])) = _
      rw [pairsOk_cons_cons a b (t2 ++ [c]), ihx, pairsOk_cons_cons a b t2,
        List.getLast?_cons_cons, Bool.and_assoc]

theorem noCur_append_one (acc : PathC) (c : Component) :
    noCur (acc ++ [c]) = (noCur acc && !(decide (c = Component.curDir))) := by
  simp [noCur]

theorem noCur_dropLast {l : PathC} (h : noCur l = true) : noCur l.dropLast = true := by
  cases hl : l.getLast? with
  | none =>
    cases l with
    | nil => simpa using h
    | cons a t => simp at hl
  | some x =>
    have := getLast?_decomp hl
    rw [this, noCur_append_one] at h
    exact (Bool.and_eq_true_iff.mp h).1

theorem pairsOk_dropLast {l : PathC} (h : pairsOk l = true) :
    pairsOk l.dropLast = true := by
  cases hl : l.getLast? with
  | none =>
    cases l with
    | nil => simpa using h
    | cons a t => simp at hl
  | some x =>
    have hd := getLast?_decomp hl
    rw [hd, pairsOk_append_one] at h
    exact (Bool.and_eq_true_iff.mp h).1

theorem cleanStep_inv {acc : PathC} {c : Component}
    (h1 : noCur acc = true) (h2 : pairsOk acc = true) :
    noCur (cleanStep acc c) = true ∧ pairsOk (cleanStep acc c) = true := by
  cases c with
  | rootDir =>
    constructor
    · simp [cleanStep, noCur_append_one, h1]
    · simp [cleanStep, pairsOk_append_one, h2, pairOkLast]
      cases acc.getLast? with
      | none => simp [pairOkLast]
      | some a => simp [pairOkLast, pairOk]
  | normal s =>
    constructor
    · simp [cleanStep, noCur_append_one, h1]
    · simp [cleanStep, pairsOk_append_one, h2, pairOkLast]
      cases acc.getLast? with
      | none => simp [pairOkLast]
      | some a => simp [pairOkLast, pairOk]
  | curDir => exact ⟨h1, h2⟩
  | parentDir =>
    simp only [cleanStep]
    cases hl : acc.getLast? with
    | none =>
      refine ⟨by simp [noCur_append_one, h1], ?_⟩
      rw [pairsOk_append_one, hl]
      simp [pairOkLast, h2]
    | some a =>
      cases a with
      | normal s => exact ⟨noCur_dropLast h1, pairsOk_dropLast h2⟩
      | rootDir =>
        refine ⟨by simp [noCur_append_one, h1], ?_⟩
        rw [pairsOk_append_one, hl]
        simp [pairOkLast, pairOk, h2, Component.isNormal]
      | curDir =>
        refine ⟨by simp [noCur_append_one, h1], ?_⟩
        rw [pairsOk_append_one, hl]
        simp [pairOkLast, pairOk, h2, Component.isNormal]
      | parentDir =>
        refine ⟨by simp [noCur_append_one, h1], ?_⟩
        rw [pairsOk_append_one, hl]
        simp [pairOkLast, pairOk, h2, Component.isNormal]

theorem clean_inv_aux (p : PathC) : ∀ acc : PathC,
    noCur acc = true → pairsOk acc = true →
    noCur (p.foldl cleanStep acc) = true ∧ pairsOk (p.foldl cleanStep acc) = true := by
  induction p with
  | nil => exact fun acc h1 h2 => ⟨h1, h2⟩
  | cons c t ih =>
    intro acc h1 h2
    have := cleanStep_inv (c := c) h1 h2
    exact ih (cleanStep acc c) this.1 this.2

theorem clean_inv (p : PathC) :
    noCur (clean_solidity_path p) = true ∧ pairsOk (clean_solidity_path p) = true :=
  clean_inv_aux p [] rfl rfl

theorem foldl_cleanStep_shift (p : PathC) : ∀ ks acc : PathC,
    (∀ s, ks.getLast? ≠ some (Component.normal s)) →
    p.foldl cleanStep (ks ++ acc) = ks ++ p.foldl cleanStep acc := by
  induction p with
  | nil => intro ks acc _; rfl
  | cons c t ih =>
    intro ks acc hks
    have hstep : cleanStep (ks ++ acc) c = ks ++ cleanStep acc c := by
      cases c with
      | rootDir => simp [cleanStep]
      | normal s => simp [cleanStep]
      | curDir => rfl
      | parentDir =>
        cases hacc : acc.getLast? with
        | none =>
          have hnil : acc = [] := by
            cases acc with
            | nil => rfl
            | cons a t2 => simp at hacc
          subst hnil
          simp only [cleanStep, List.append_nil]
          cases hks2 : ks.getLast? with
          | none => simp
          | some a =>
            cases a with
            | normal s => exact absurd hks2 (hks s)
            | rootDir => simp
            | curDir => simp
            | parentDir => simp
        | some a =>
          have hne : acc ≠ [] := by
            intro hc; subst hc; simp at hacc
          have hl : (ks ++ acc).getLast? = some a := by
            rw [List.getLast?_append, hacc]; rfl
          have hdrop : (ks ++ acc).dropLast = ks ++ acc.dropLast :=
            List.dropLast_append_of_ne_nil ks hne
          cases a with
          | normal s => simp only [cleanStep, hacc, hl, hdrop]
          | rootDir => simp only [cleanStep, hacc, hl, List.append_assoc]
          | curDir => simp only [cleanStep, hacc, hl, List.append_assoc]
          | parentDir => simp only [cleanStep, hacc, hl, List.append_assoc]
    rw [List.foldl_cons, List.foldl_cons, hstep, ih ks (cleanStep acc c) hks]

theorem clean_parent_replicate (k : Nat) :
    clean_solidity_path (List.replicate k Component.parentDir) =
      List.replicate k Component.parentDir := by
  induction k with
  | zero => rfl
  | succ n ih =>
    have hrep : List.replicate (n + 1) Component.parentDir =
        List.replicate n Component.parentDir ++ [Component.parentDir] := by
      rw [List.replicate_succ']
    rw [hrep]
    unfold clean_solidity_path at *
    rw [List.foldl_append, ih]
    simp only [List.foldl_cons, List.foldl_nil, cleanStep]
    cases hg : (List.replicate n Component.parentDir).getLast? with
    | none => rfl
    | some a =>
      have ha : a = Component.parentDir := by
        have := List.mem_of_mem_getLast? hg
        simpa using (List.eq_of_mem_replicate this)
      rw [ha]

theorem replicate_parent_getLast (k : Nat) :
    ∀ s, (List.replicate k Component.parentDir).getLast? ≠
      some (Component.normal s) := by
  intro s h
  have := List.mem_of_mem_getLast? h
  have := List.eq_of_mem_replicate this
  exact Component.noConfusion this

/-- C5, parts 2 and 3 helper: cleaning a path with `k` leading `..`
components keeps them verbatim. -/
theorem clean_shift_parents (k : Nat) (p : PathC) :
    clean_solidity_path (List.replicate k Component.parentDir ++ p) =
      List.replicate k Component.parentDir ++ clean_solidity_path p := by
  unfold clean_solidity_path
  rw [List.foldl_append]
  have h1 : (List.replicate k Component.parentDir).foldl cleanStep [] =
      List.replicate k Component.parentDir := clean_parent_replicate k
  rw [h1]
  have := foldl_cleanStep_shift p (List.replicate k Component.parentDir) []
    (replicate_parent_getLast k)
  simpa using this

theorem clean_shift_root (p : PathC) :
    clean_solidity_path (Component.rootDir :: p) =
      Component.rootDir :: clean_solidity_path p := by
  unfold clean_solidity_path
  have h0 : cleanStep [] Component.rootDir = [Component.rootDir] := rfl
  rw [List.foldl_cons, h0]
  have := foldl_cleanStep_shift p [Component.rootDir] []
    (fun s h => by simp at h)
  simpa using this

theorem clean_fixed (l : PathC) :
    noCur l = true → pairsOk l = true → ∀ acc : PathC,
    ((∀ s, l.head? = some Component.parentDir →
        acc.getLast? ≠ some (Component.normal s))) →
    l.foldl cleanStep acc = acc ++ l := by
  induction l with
  | nil => intro _ _ acc _; simp
  | cons c t ih =>
    intro h1 h2 acc hj
    have hc : c ≠ Component.curDir := by
      intro hc; subst hc; simp [noCur] at h1
    have hstep : cleanStep acc c = acc ++ [c] := by
      cases c with
      | curDir => exact absurd rfl hc
      | rootDir => rfl
      | normal s => rfl
      | parentDir =>
        simp only [cleanStep]
        cases hg : acc.getLast? with
        | none => rfl
        | some a =>
          cases a with
          | normal s => exact absurd hg (hj s rfl)
          | rootDir => rfl
          | curDir => rfl
          | parentDir => rfl
    have h1t : noCur t = true := by
      simp [noCur] at h1 ⊢; exact h1.2
    have h2t : pairsOk t = true := by
      cases t with
      | nil => rfl
      | cons b t2 =>
        rw [pairsOk_cons_cons] at h2
        exact (Bool.and_eq_true_iff.mp h2).2
    have hjt : ∀ s, t.head? = some Component.parentDir →
        (acc ++ [c]).getLast? ≠ some (Component.normal s) := by
      intro s ht
      cases t with
      | nil => simp at ht
      | cons b t2 =>
        simp at ht
        subst ht
        rw [pairsOk_cons_cons] at h2
        have hp : pairOk c Component.parentDir = true :=
          (Bool.and_eq_true_iff.mp h2).1
        have hcn : c.isNormal = false := by
          by_contra hcn2
          simp [pairOk, Bool.not_eq_false] at hcn2 hp
          rw [hcn2] at hp
          simp at hp
        intro hlast
        rw [List.getLast?_append] at hlast
        simp at hlast
        rw [hlast] at hcn
        simp [Component.isNormal] at hcn
    rw [List.foldl_cons, hstep, ih h1t h2t (acc ++ [c]) hjt, List.append_assoc]
    rfl

/-- C4: the normalizer is a pure function of the path text (the model
takes no filesystem argument at all) and satisfies the literal
correctness table of the repository's `can_clean_solidity_path` test,
observed exactly as that test observes it (parse the literal, clean,
collect back into a path string). -/
theorem C4_normalizer_table :
    cleanPathString "a" = "a" ∧
    cleanPathString "./a" = "a" ∧
    cleanPathString "../a" = "../a" ∧
    cleanPathString "/a/" = "/a" ∧
    cleanPathString "//a" = "/a" ∧
    cleanPathString "a//b" = "a/b" ∧
    cleanPathString "a/./b" = "a/b" ∧
    cleanPathString "/a/../b" = "/b" ∧
    cleanPathString "a/./../b/." = "b" ∧
    cleanPathString "a/b/../../../c" = "../c" ∧
    cleanPathString "a/../b/../../c/./Token.sol" = "../c/Token.sol" := by
  refine ⟨?_, ?_, ?_, ?_, ?_, ?_, ?_, ?_, ?_, ?_, ?_⟩ <;> decide

/-- C5: the output of the lexical normalizer contains no `.` component and
no `..` component directly after a plain named component; leading `..`
runs and a leading root marker pass through the normalizer verbatim. -/
theorem C5_normalizer_invariant :
    (∀ p : PathC, noCur (clean_solidity_path p) = true ∧
      pairsOk (clean_solidity_path p) = true) ∧
    (∀ (k : Nat) (p : PathC),
      clean_solidity_path (List.replicate k Component.parentDir ++ p) =
        List.replicate k Component.parentDir ++ clean_solidity_path p) ∧
    (∀ p : PathC, clean_solidity_path (Component.rootDir :: p) =
      Component.rootDir :: clean_solidity_path p) :=
  ⟨clean_inv, clean_shift_parents, clean_shift_root⟩

/-- C6: the lexical normalizer is idempotent: cleaning an already-cleaned
path returns it unchanged. -/
theorem C6_normalizer_idempotent (p : PathC) :
    clean_solidity_path (clean_solidity_path p) = clean_solidity_path p := by
  have hinv := clean_inv p
  have := clean_fixed (clean_solidity_path p) hinv.1 hinv.2 []
    (fun s _ h => by simp at h)
  simpa [clean_solidity_path] using this

/-! ### Library resolution (C1, C10) -/

theorem resolve_library_loop_eq (fs : FS) (source : PathC) (f : String)
    (rest : PathC) : ∀ libs : List PathC,
    resolve_library_loop fs source f rest libs =
      (libraryCandidates libs source f rest).find? fs := by
  intro libs
  induction libs with
  | nil => rfl
  | cons lib libs ih =>
    have hcand : libraryCandidates (lib :: libs) source f rest =
        pjoin lib source ::
          pjoin (pjoin (pjoin lib [Component.normal f]) [Component.normal "src"])
            rest :: libraryCandidates libs source f rest := by
      simp [libraryCandidates]
    rw [hcand]
    show (if fs (pjoin lib source) = true then some (pjoin lib source)
      else if fs (pjoin (pjoin (pjoin lib [Component.normal f])
          [Component.normal "src"]) rest) = true
        then some (pjoin (pjoin (pjoin lib [Component.normal f])
          [Component.normal "src"]) rest)
        else resolve_library_loop fs source f rest libs) = _
    by_cases h1 : fs (pjoin lib source)
    · simp [h1, List.find?]
    · by_cases h2 : fs (pjoin (pjoin (pjoin lib [Component.normal f])
          [Component.normal "src"]) rest)
      · simp [h1, h2, List.find?]
      · simp [h1, h2, List.find?, ih]

/-- C1: for an import whose first component is a plain name, library
resolution returns exactly the first existing candidate in the ordered
candidate list "for each root in order: direct join, then
`<root>/<first>/src/<rest>`" (so the direct match is preferred over the
`src`-convention match within one root), and when no candidate exists the
result is `none`, not an error. -/
theorem C1_library_resolution (fs : FS) (libs : List PathC) (f : String)
    (rest : PathC) :
    resolve_library fs libs (Component.normal f :: rest) =
      (libraryCandidates libs (Component.normal f :: rest) f rest).find? fs ∧
    ((∀ c ∈ libraryCandidates libs (Component.normal f :: rest) f rest,
        fs c = false) →
      resolve_library fs libs (Component.normal f :: rest) = none) := by
  have h1 : resolve_library fs libs (Component.normal f :: rest) =
      (libraryCandidates libs (Component.normal f :: rest) f rest).find? fs :=
    resolve_library_loop_eq fs (Component.normal f :: rest) f rest libs
  refine ⟨h1, fun hall => ?_⟩
  rw [h1]
  exact List.find?_eq_none.mpr fun c hc => by simp [hall c hc]

theorem C1_library_resolution_witness :
    resolve_library (fun _ => false) [[Component.normal "lib"]]
      [Component.normal "a"] = none :=
  (C1_library_resolution (fun _ => false) [[Component.normal "lib"]] "a" []).2
    (fun _ _ => rfl)

/-- C10: a source path is classified local exactly when library resolution
returns nothing; an absolute path (leading root marker) is never local,
whatever the filesystem contains; a path with a leading `..` is always
local. -/
theorem C10_is_local_source_name :
    (∀ (fs : FS) (libs : List PathC) (source : PathC),
      is_local_source_name fs libs source =
        (resolve_library fs libs source).isNone) ∧
    (∀ (fs : FS) (libs : List PathC) (rest : PathC),
      is_local_source_name fs libs (Component.rootDir :: rest) = false) ∧
    (∀ (fs : FS) (libs : List PathC) (rest : PathC),
      is_local_source_name fs libs (Component.parentDir :: rest) = true) :=
  ⟨fun _ _ _ => rfl, fun _ _ _ => rfl, fun _ _ _ => rfl⟩

/-! ### Absolute import resolution (C2, C3) -/

theorem parent?_eq {p : PathC} (h1 : p ≠ []) (h2 : p ≠ [Component.rootDir]) :
    parent? p = some p.dropLast := by
  cases p with
  | nil => exact absurd rfl h1
  | cons a t =>
    cases t with
    | nil =>
      cases a with
      | rootDir => exact absurd rfl h2
      | curDir => rfl
      | parentDir => rfl
      | normal s => rfl
    | cons b t2 => cases a <;> rfl

theorem walk_root (fs : FS) (root imp par : PathC) (h : par = root) :
    resolve_absolute_walk fs root imp par = none := by
  rw [resolve_absolute_walk]
  simp [h]

theorem walk_hit (fs : FS) (root imp par n : PathC) (hpar : par ≠ root)
    (hn : normalize_solidity_import_path fs par imp = some n) :
    resolve_absolute_walk fs root imp par = some (par, n) := by
  rw [resolve_absolute_walk]
  rw [if_neg hpar]
  simp only [hn]

theorem walk_miss_none (fs : FS) (root imp par : PathC) (hpar : par ≠ root)
    (hn : normalize_solidity_import_path fs par imp = none)
    (hq : parent? par = none) :
    resolve_absolute_walk fs root imp par = none := by
  rw [resolve_absolute_walk]
  rw [if_neg hpar]
  simp only [hn]
  split
  · rfl
  · rename_i q heq
    rw [hq] at heq
    cases heq

theorem walk_miss_some (fs : FS) (root imp par q : PathC) (hpar : par ≠ root)
    (hn : normalize_solidity_import_path fs par imp = none)
    (hq : parent? par = some q) :
    resolve_absolute_walk fs root imp par = resolve_absolute_walk fs root imp q := by
  rw [resolve_absolute_walk]
  rw [if_neg hpar]
  simp only [hn]
  split
  · rename_i heq
    rw [hq] at heq
    cases heq
  · rename_i q2 heq
    rw [hq] at heq
    cases heq
    rfl

theorem ancestorsUpTo_root (root par : PathC) (h : par = root) :
    ancestorsUpTo root par = [] := by
  rw [ancestorsUpTo]
  simp [h]

theorem ancestorsUpTo_last (root par : PathC) (hpar : par ≠ root)
    (hq : parent? par = none) : ancestorsUpTo root par = [par] := by
  rw [ancestorsUpTo]
  rw [if_neg hpar]
  split
  · rfl
  · rename_i q heq
    rw [hq] at heq
    cases heq

theorem ancestorsUpTo_unroll (root par q : PathC) (hpar : par ≠ root)
    (hq : parent? par = some q) :
    ancestorsUpTo root par = par :: ancestorsUpTo root q := by
  rw [ancestorsUpTo]
  rw [if_neg hpar]
  split
  · rename_i heq
    rw [hq] at heq
    cases heq
  · rename_i q2 heq
    rw [hq] at heq
    cases heq
    rfl

theorem walk_eq_firstHit (fs : FS) (root imp : PathC) : ∀ par : PathC,
    resolve_absolute_walk fs root imp par =
      firstHit fs imp (ancestorsUpTo root par) := by
  intro par
  induction par using ancestorsUpTo.induct root with
  | case1 =>
    rw [walk_root fs root imp root rfl, ancestorsUpTo_root root root rfl]
    rfl
  | case2 par hpar hq =>
    rw [ancestorsUpTo_last root par hpar hq]
    cases hn : normalize_solidity_import_path fs par imp with
    | some n =>
      rw [walk_hit fs root imp par n hpar hn]
      simp [firstHit, hn]
    | none =>
      rw [walk_miss_none fs root imp par hpar hn hq]
      simp [firstHit, hn]
  | case3 par hpar q hq ih =>
    rw [ancestorsUpTo_unroll root par q hpar hq]
    cases hn : normalize_solidity_import_path fs par imp with
    | some n =>
      rw [walk_hit fs root imp par n hpar hn]
      simp [firstHit, hn]
    | none =>
      rw [walk_miss_some fs root imp par q hpar hn hq]
      simp [firstHit, hn, ih]

theorem firstHit_none_of_all (fs : FS) (imp : PathC) : ∀ l : List PathC,
    (∀ a ∈ l, normalize_solidity_import_path fs a imp = none) →
    firstHit fs imp l = none := by
  intro l
  induction l with
  | nil => intro _; rfl
  | cons a t ih =>
    intro h
    have ha := h a (List.mem_cons_self a t)
    simp only [firstHit, ha]
    exact ih fun b hb => h b (List.mem_cons_of_mem a hb)

theorem resolve_absolute_eq_firstHit (fs : FS) (root cwd imp : PathC) :
    resolve_absolute_library fs root cwd imp =
      firstHit fs imp (ancestorChain root cwd) := by
  unfold resolve_absolute_library ancestorChain
  cases hp : parent? cwd with
  | none => rfl
  | some par => exact walk_eq_firstHit fs root imp par

theorem length_ne_of_append_ne {α : Type} {a b : List α}
    (h : a.length ≠ b.length) : a ≠ b := fun hc => h (by rw [hc])

theorem firstHit_child (fs : FS) (root imp : PathC) (c : String) (n : PathC)
    (hc : normalize_solidity_import_path fs (root ++ [Component.normal c]) imp
      = some n) :
    ∀ (k : Nat) (rest : PathC), rest.length ≤ k →
    (∀ a ∈ ancestorsUpTo root (root ++ [Component.normal c] ++ rest),
      a ≠ root ++ [Component.normal c] →
      normalize_solidity_import_path fs a imp = none) →
    firstHit fs imp (ancestorsUpTo root (root ++ [Component.normal c] ++ rest))
      = some (root ++ [Component.normal c], n) := by
  intro k
  induction k with
  | zero =>
    intro rest hlen _
    have hrest : rest = [] := List.length_eq_zero.mp (Nat.le_zero.mp hlen)
    subst hrest
    simp only [List.append_nil]
    have hne1 : root ++ [Component.normal c] ≠ root := by
      apply length_ne_of_append_ne
      simp
    have hpc : root ++ [Component.normal c] ≠ [Component.rootDir] := by
      intro hcon
      have := congrArg List.getLast? hcon
      simp at this
    have hpq : parent? (root ++ [Component.normal c]) = some root := by
      rw [parent?_eq (by simp) hpc]
      simp
    rw [ancestorsUpTo_unroll root _ root hne1 hpq, ancestorsUpTo_root root root rfl]
    simp [firstHit, hc]
  | succ m ih =>
    intro rest hlen hoff
    cases hrest : rest with
    | nil =>
      subst hrest
      exact ih [] (Nat.zero_le m) (by simpa using hoff)
    | cons r0 rtail =>
      subst hrest
      have hne0 : root ++ [Component.normal c] ++ (r0 :: rtail) ≠ root := by
        apply length_ne_of_append_ne
        simp
      have hnnil : root ++ [Component.normal c] ++ (r0 :: rtail) ≠ [] := by
        simp
      have hnroot1 : root ++ [Component.normal c] ++ (r0 :: rtail) ≠
          [Component.rootDir] := by
        apply length_ne_of_append_ne
        simp
        omega
      have hdl : (root ++ [Component.normal c] ++ (r0 :: rtail)).dropLast =
          root ++ [Component.normal c] ++ (r0 :: rtail).dropLast := by
        rw [List.append_assoc,
          List.dropLast_append_of_ne_nil root (by simp :
            [Component.normal c] ++ (r0 :: rtail) ≠ []),
          List.dropLast_append_of_ne_nil [Component.normal c]
            (List.cons_ne_nil r0 rtail),
          List.append_assoc]
      have hpq : parent? (root ++ [Component.normal c] ++ (r0 :: rtail)) =
          some (root ++ [Component.normal c] ++ (r0 :: rtail).dropLast) := by
        rw [parent?_eq hnnil hnroot1, hdl]
      have hchain := ancestorsUpTo_unroll root _ _ hne0 hpq
      rw [hchain]
      have hself : root ++ [Component.normal c] ++ (r0 :: rtail) ≠
          root ++ [Component.normal c] := by
        apply length_ne_of_append_ne
        simp
      have hmiss : normalize_solidity_import_path fs
          (root ++ [Component.normal c] ++ (r0 :: rtail)) imp = none := by
        apply hoff
        · rw [hchain]; exact List.mem_cons_self _ _
        · exact hself
      simp only [firstHit, hmiss]
      apply ih ((r0 :: rtail).dropLast)
      · simpa using Nat.le_of_succ_le_succ (by simpa using hlen)
      · intro a ha hne
        apply hoff
        · rw [hchain]; exact List.mem_cons_of_mem _ ha
        · exact hne

/-- C2 counterexample input: the filesystem contains exactly
`/r/c/i`, the project root is `/r`, the working directory is `/r/c`
(strictly below the root), and the import `i` is resolvable at the root's
immediate child `/r/c` (the normalization check succeeds there) - yet
absolute resolution returns `none`, because the walk starts at
`cwd.parent() = /r`, which equals the root, so the immediate child is
never tried. -/
theorem C2_counterexample :
    resolve_absolute_library
      (fun p => decide (p = [Component.rootDir, Component.normal "r",
        Component.normal "c", Component.normal "i"]))
      [Component.rootDir, Component.normal "r"]
      [Component.rootDir, Component.normal "r", Component.normal "c"]
      [Component.normal "i"] = none ∧
    normalize_solidity_import_path
      (fun p => decide (p = [Component.rootDir, Component.normal "r",
        Component.normal "c", Component.normal "i"]))
      [Component.rootDir, Component.normal "r", Component.normal "c"]
      [Component.normal "i"] =
      some [Component.rootDir, Component.normal "r", Component.normal "c",
        Component.normal "i"] := by
  constructor
  · show resolve_absolute_walk _ _ _ [Component.rootDir, Component.normal "r"]
      = none
    exact walk_root _ _ _ _ rfl
  · decide

/-- C2 (amended): absolute resolution returns, for the first ancestor in
the walked chain (the working directory's proper ancestors, walking
upward, cut off exclusively at the root) at which the ancestor-joined,
lexically normalized import path exists, the pair of that ancestor and the
resolved normalized path; and an import resolvable only at the root's
immediate child is found provided the working directory lies strictly
below that immediate child (when the working directory is the immediate
child itself, the walk starts at the root and finds nothing - see the
counterexample). -/
theorem C2_absolute_resolution :
    (∀ (fs : FS) (root cwd imp : PathC),
      resolve_absolute_library fs root cwd imp =
        firstHit fs imp (ancestorChain root cwd)) ∧
    (∀ (fs : FS) (root : PathC) (c : String) (rest imp n : PathC),
      rest ≠ [] →
      normalize_solidity_import_path fs (root ++ [Component.normal c]) imp =
        some n →
      (∀ a ∈ ancestorChain root (root ++ [Component.normal c] ++ rest),
        a ≠ root ++ [Component.normal c] →
        normalize_solidity_import_path fs a imp = none) →
      resolve_absolute_library fs root (root ++ [Component.normal c] ++ rest)
        imp = some (root ++ [Component.normal c], n)) := by
  refine ⟨resolve_absolute_eq_firstHit, ?_⟩
  intro fs root c rest imp n hrest hc hoff
  rw [resolve_absolute_eq_firstHit]
  have hnnil : root ++ [Component.normal c] ++ rest ≠ [] := by simp
  have hnroot1 : root ++ [Component.normal c] ++ rest ≠ [Component.rootDir] := by
    apply length_ne_of_append_ne
    simp
    cases rest with
    | nil => exact absurd rfl hrest
    | cons a t => simp; omega
  have hdl : (root ++ [Component.normal c] ++ rest).dropLast =
      root ++ [Component.normal c] ++ rest.dropLast := by
    rw [List.append_assoc,
      List.dropLast_append_of_ne_nil root (by simp [hrest] :
        [Component.normal c] ++ rest ≠ []),
      List.dropLast_append_of_ne_nil [Component.normal c] hrest,
      List.append_assoc]
  have hpq : parent? (root ++ [Component.normal c] ++ rest) =
      some (root ++ [Component.normal c] ++ rest.dropLast) := by
    rw [parent?_eq hnnil hnroot1, hdl]
  have hchain : ancestorChain root (root ++ [Component.normal c] ++ rest) =
      ancestorsUpTo root (root ++ [Component.normal c] ++ rest.dropLast) := by
    unfold ancestorChain
    rw [hpq]
  rw [hchain]
  apply firstHit_child fs root imp c n hc rest.dropLast.length rest.dropLast
    (Nat.le_refl _)
  intro a ha hne
  apply hoff
  · rw [hchain]; exact ha
  · exact hne

theorem C2_absolute_resolution_witness :
    resolve_absolute_library
      (fun p => decide (p = [Component.rootDir, Component.normal "lib",
        Component.normal "i"]))
      [Component.rootDir]
      [Component.rootDir, Component.normal "lib", Component.normal "src"]
      [Component.normal "i"] =
      some ([Component.rootDir, Component.normal "lib"],
        [Component.rootDir, Component.normal "lib", Component.normal "i"]) := by
  have happ : [Component.rootDir, Component.normal "lib", Component.normal "src"]
      = [Component.rootDir] ++ [Component.normal "lib"] ++
        [Component.normal "src"] := rfl
  rw [happ]
  apply C2_absolute_resolution.2
    (fun p => decide (p = [Component.rootDir, Component.normal "lib",
      Component.normal "i"]))
    [Component.rootDir] "lib" [Component.normal "src"] [Component.normal "i"]
    [Component.rootDir, Component.normal "lib", Component.normal "i"]
  · simp
  · decide
  · intro a ha hne
    have hchain : ancestorChain [Component.rootDir]
        ([Component.rootDir] ++ [Component.normal "lib"] ++
          [Component.normal "src"]) =
        [[Component.rootDir, Component.normal "lib"]] := by
      show ancestorsUpTo [Component.rootDir]
        [Component.rootDir, Component.normal "lib"] = _
      rw [ancestorsUpTo_unroll [Component.rootDir]
        [Component.rootDir, Component.normal "lib"] [Component.rootDir]
        (by decide) rfl]
      rw [ancestorsUpTo_root [Component.rootDir] [Component.rootDir] rfl]
    rw [hchain] at ha
    simp at ha
    exact absurd ha hne

/-- C3: when no walked ancestor (the working directory's proper ancestors,
strictly before the root, or the whole chain when it is exhausted before
reaching the root) yields an existing normalized path, absolute resolution
returns `none` - an absent value, not an error; the walk itself is a
total function (it is defined by well-founded recursion on the ancestor
chain, which shortens at every step), so it never loops forever. -/
theorem C3_absolute_resolution_absence (fs : FS) (root cwd imp : PathC)
    (h : ∀ a ∈ ancestorChain root cwd,
      normalize_solidity_import_path fs a imp = none) :
    resolve_absolute_library fs root cwd imp = none := by
  rw [resolve_absolute_eq_firstHit]
  exact firstHit_none_of_all fs imp _ h

theorem C3_absolute_resolution_absence_witness :
    resolve_absolute_library (fun _ => false) [Component.rootDir]
      [Component.rootDir, Component.normal "a", Component.normal "b"]
      [Component.normal "i"] = none :=
  C3_absolute_resolution_absence (fun _ => false) [Component.rootDir]
    [Component.rootDir, Component.normal "a", Component.normal "b"]
    [Component.normal "i"] (fun _ _ => rfl)

/-! ### Version pragma extraction (C7) -/

theorem findSemi_build : ∀ (v : List Char), (∀ ch ∈ v, ch ≠ ';' ∧ ch ≠ '\n') →
    ∀ rest : List Char, findSemi (v ++ ';' :: rest) = some (v, rest) := by
  intro v
  induction v with
  | nil => intro _ rest; simp [findSemi]
  | cons c t ih =>
    intro h rest
    have hc := h c (List.mem_cons_self c t)
    have ht := ih (fun ch hch => h ch (List.mem_cons_of_mem c hch)) rest
    show (if c = ';' then some (([] : List Char), t ++ ';' :: rest)
      else if c = '\n' then none
      else (findSemi (t ++ ';' :: rest)).map fun vr => (c :: vr.1, vr.2)) = _
    rw [if_neg hc.1, if_neg hc.2, ht]
    rfl

theorem wsSplit_not {c : Char} (t : List Char) (h : isWs c = false) :
    wsSplit (c :: t) = ([], c :: t) := by
  simp [wsSplit, h]

/-- Evaluation of the pragma pattern at the start of a well-formed pragma
statement: the capture is exactly the expression between the single
whitespace and the `;`. -/
theorem pragmaAt_build (c : Char) (vt : List Char) (hwc : isWs c = false)
    (hv : ∀ ch ∈ c :: vt, ch ≠ ';' ∧ ch ≠ '\n') :
    pragmaAt ("pragma solidity ".toList ++ ((c :: vt) ++ [';'])) =
      some (c :: vt) := by
  have hsemi := findSemi_build (c :: vt) hv []
  simp only [List.append_nil, List.cons_append] at hsemi
  have w0 : isWs ' ' = true := rfl
  have w1 : isWs 's' = false := rfl
  have w2 : isWs 'o' = false := rfl
  have w3 : isWs 'l' = false := rfl
  have w4 : isWs 'i' = false := rfl
  have w5 : isWs 'd' = false := rfl
  have w6 : isWs 't' = false := rfl
  have w7 : isWs 'y' = false := rfl
  simp [pragmaAt, wsPlus, wsSplit, dropLit, hwc, hsemi,
    w0, w1, w2, w3, w4, w5, w6, w7]

theorem pragmaScan_cons (c : Char) (t : List Char) :
    pragmaScan (c :: t) = (match pragmaAt (c :: t) with
      | some v => some v
      | none => pragmaScan t) := rfl

/-- C7 counterexample: the claim says surrounding whitespace of the
expression is trimmed, but on `pragma solidity ^0.8.0 ;` the code's lazy
capture keeps the space before the `;`: the extracted text is `^0.8.0 `
(with a trailing space), not `^0.8.0`. -/
theorem C7_counterexample :
    find_version_pragma "pragma solidity ^0.8.0 ;" = some "^0.8.0 " ∧
    some "^0.8.0 " ≠ some "^0.8.0" := by
  exact ⟨by decide, by decide⟩

/-- C7 (amended): version pragma extraction returns the first pragma
expression - everything between `pragma solidity` (whose trailing
mandatory whitespace is consumed) and the terminating `;`, kept verbatim
including any trailing whitespace before the `;` - and an absent value
when no pragma is present.  The general conjunct covers every expression
that starts with a non-whitespace character and contains no `;` and no
newline; the literal case `pragma solidity ^0.8.0;` yields `^0.8.0`. -/
theorem C7_version_pragma :
    (∀ (c : Char) (vt : List Char), isWs c = false →
      (∀ ch ∈ c :: vt, ch ≠ ';' ∧ ch ≠ '\n') →
      find_version_pragma (String.mk ("pragma solidity ".toList ++
        ((c :: vt) ++ [';']))) = some (String.mk (c :: vt))) ∧
    find_version_pragma "pragma solidity ^0.8.0;" = some "^0.8.0" ∧
    find_version_pragma "contract A" = none := by
  refine ⟨?_, by decide, by decide⟩
  intro c vt hwc hv
  have hAt := pragmaAt_build c vt hwc hv
  show (pragmaScan ("pragma solidity ".toList ++ ((c :: vt) ++ [';']))).map
    String.mk = some (String.mk (c :: vt))
  have hcons : "pragma solidity ".toList ++ ((c :: vt) ++ [';']) =
      'p' :: ("ragma solidity ".toList ++ ((c :: vt) ++ [';'])) := rfl
  have hscan : pragmaScan ("pragma solidity ".toList ++ ((c :: vt) ++ [';']))
      = some (c :: vt) := by
    rw [hcons, pragmaScan_cons, ← hcons, hAt]
  rw [hscan]
  rfl

theorem C7_version_pragma_witness :
    find_version_pragma (String.mk ("pragma solidity ".toList ++
      (('^' :: "0.8.0".toList) ++ [';']))) =
      some (String.mk ('^' :: "0.8.0".toList)) :=
  C7_version_pragma.1 '^' "0.8.0".toList (by decide) (by decide)

/-! ### Import statement extraction (C8) -/

theorem capsOne_p1 (v : String) : capsOne ⟨some v, none, none, none⟩ = true := rfl

theorem capsOne_p2 (v : String) : capsOne ⟨none, some v, none, none⟩ = true := rfl

theorem capsOne_p3 (v : String) : capsOne ⟨none, none, some v, none⟩ = true := rfl

theorem capsOne_p4 (v : String) : capsOne ⟨none, none, none, some v⟩ = true := rfl

theorem branchA_one {s : List Char} {caps : ImportCaps} {r : List Char}
    (h : branchA s = some (caps, r)) : capsOne caps = true := by
  cases s with
  | nil => simp [branchA] at h
  | cons c t =>
    simp only [branchA] at h
    by_cases h1 : c = dqChar
    · rw [if_pos h1] at h
      cases hq : quotedGreedy dqChar afterQuoteA t with
      | none => rw [hq] at h; cases h
      | some vr =>
        rw [hq] at h
        simp only [Option.map_some'] at h
        cases h
        exact capsOne_p1 _
    · rw [if_neg h1] at h
      by_cases h2 : c = sqChar
      · rw [if_pos h2] at h
        cases hq : quotedGreedy sqChar afterQuoteA t with
        | none => rw [hq] at h; cases h
        | some vr =>
          rw [hq] at h
          simp only [Option.map_some'] at h
          cases h
          exact capsOne_p2 _
      · rw [if_neg h2] at h
        cases h

theorem branchB_one {s : List Char} {caps : ImportCaps} {r : List Char}
    (h : branchB s = some (caps, r)) : capsOne caps = true := by
  unfold branchB at h
  cases hh : importHead s with
  | none => rw [hh] at h; cases h
  | some s1 =>
    rw [hh] at h
    simp only [Option.bind_eq_bind, Option.some_bind] at h
    cases hf : fromPart s1 with
    | none => rw [hf] at h; cases h
    | some s2 =>
      rw [hf] at h
      simp only [Option.bind_eq_bind, Option.some_bind] at h
      cases s2 with
      | nil => cases h
      | cons c t =>
        replace h : (if c = dqChar then
            (quotedGreedy dqChar semiTail t).map (fun vr =>
              ((⟨none, none, some (String.mk vr.1), none⟩ : ImportCaps), vr.2))
          else if c = sqChar then
            (quotedGreedy sqChar semiTail t).map (fun vr =>
              ((⟨none, none, none, some (String.mk vr.1)⟩ : ImportCaps), vr.2))
          else none) = some (caps, r) := h
        by_cases h1 : c = dqChar
        · rw [if_pos h1] at h
          cases hq : quotedGreedy dqChar semiTail t with
          | none => rw [hq] at h; cases h
          | some vr =>
            rw [hq] at h
            simp only [Option.map_some'] at h
            cases h
            exact capsOne_p3 _
        · rw [if_neg h1] at h
          by_cases h2 : c = sqChar
          · rw [if_pos h2] at h
            cases hq : quotedGreedy sqChar semiTail t with
            | none => rw [hq] at h; cases h
            | some vr =>
              rw [hq] at h
              simp only [Option.map_some'] at h
              cases h
              exact capsOne_p4 _
          · rw [if_neg h2] at h
            cases h

theorem matchImportAt_one {s : List Char} {caps : ImportCaps} {r : List Char}
    (h : matchImportAt s = some (caps, r)) : capsOne caps = true := by
  unfold matchImportAt at h
  cases hd : dropLit "import".toList s with
  | none => rw [hd] at h; cases h
  | some s1 =>
    rw [hd] at h
    simp only [Option.bind_eq_bind, Option.some_bind] at h
    cases hw : wsPlus s1 with
    | none => rw [hw] at h; cases h
    | some s2 =>
      rw [hw] at h
      simp only [Option.bind_eq_bind, Option.some_bind] at h
      cases hA : branchA s2 with
      | some rr =>
        rw [hA] at h
        cases rr with
        | mk caps2 r2 =>
          cases h
          exact branchA_one hA
      | none =>
        rw [hA] at h
        exact branchB_one h

theorem scanImports_all : ∀ (fuel : Nat) (s : List Char),
    (scanImports fuel s).all capsOne = true := by
  intro fuel
  induction fuel with
  | zero => intro s; rfl
  | succ n ih =>
    intro s
    cases s with
    | nil => rfl
    | cons c t =>
      cases hm : matchImportAt (c :: t) with
      | some cr =>
        cases cr with
        | mk caps rest =>
          simp only [scanImports, hm, List.all_cons]
          exact Bool.and_eq_true_iff.mpr ⟨matchImportAt_one hm, ih rest⟩
      | none =>
        simp only [scanImports, hm]
        exact ih t

set_option maxRecDepth 100000 in
/-- C8: every match of the import pattern fills exactly one of the four
quoting slots (`p1`..`p4`), on every input; the repository's mixed-form
test document (double-quoted plain, double-quoted plain, braces-`from`
double-quoted, braces-`from` single-quoted) yields all four path literals
in source order; and a document with no import statement yields the empty
sequence, not a failure. -/
theorem C8_import_scanner :
    (∀ s : String, (find_import_captures s).all capsOne = true) ∧
    find_import_paths mixedImportDoc =
      ["hardhat/console.sol", "../contract/Contract.sol", "../Test.sol",
        "../Test2.sol"] ∧
    find_import_paths "contract A" = [] := by
  refine ⟨fun s => scanImports_all _ _, by decide, by decide⟩

/-! ### Library hash placeholder (C9) -/

theorem keccak256_length (msg : List Nat) : (keccak256 msg).length = 32 := by
  simp [keccak256, laneToBytes, List.range_succ]

theorem library_hash_length (name : List Nat) :
    (library_hash name).length = 17 := by
  simp [library_hash, keccak256_length]

theorem bytesToHex_length (bs : List Nat) :
    (bytesToHex bs).length = 2 * bs.length := by
  show (bs.flatMap hexByte).length = 2 * bs.length
  induction bs with
  | nil => rfl
  | cons b t ih =>
    simp only [List.flatMap_cons, List.length_append, ih, hexByte,
      List.length_cons, List.length_nil, List.length_cons]
    omega

set_option maxRecDepth 100000 in
/-- C9 counterexample: the claim says the placeholder IS the
34-hex-character encoding of the 17-byte hash, but the code wraps that
encoding in `$` delimiters, so the placeholder is 36 characters and is not
equal to the bare hex encoding (shown at the empty name). -/
theorem C9_counterexample :
    library_hash_placeholder [] ≠ bytesToHex (library_hash []) ∧
    (library_hash_placeholder []).length = 36 := by
  constructor
  · decide
  · decide

set_option maxRecDepth 100000 in
/-- C9 (amended): the hash is the first 17 bytes of the keccak256 hash of
the name; the placeholder is the 34-hex-character lowercase encoding of
those bytes wrapped in `$` delimiters (36 characters in all); the
function is pure, so the same name always yields the same placeholder;
and at the empty name the placeholder matches the published keccak256
test vector. -/
theorem C9_library_hash :
    (∀ name : List Nat,
      library_hash name = (keccak256 name).take 17 ∧
      library_hash_placeholder name =
        "$" ++ bytesToHex (library_hash name) ++ "$" ∧
      (bytesToHex (library_hash name)).length = 34 ∧
      (library_hash_placeholder name).length = 36) ∧
    (∀ a b : List Nat, a = b →
      library_hash_placeholder a = library_hash_placeholder b) ∧
    library_hash_placeholder [] = "$c5d2460186f7233c927e7db2dcc703c0e5$" := by
  refine ⟨fun name => ⟨rfl, rfl, ?_, ?_⟩, fun a b hab => by rw [hab], by decide⟩
  · rw [bytesToHex_length, library_hash_length]
  · show ("$" ++ bytesToHex (library_hash name) ++ "$").length = 36
    rw [String.length_append, String.length_append, bytesToHex_length,
      library_hash_length]
    rfl

theorem C9_library_hash_witness :
    library_hash_placeholder [104, 101, 108, 108, 111] =
      library_hash_placeholder [104, 101, 108, 108, 111] :=
  C9_library_hash.2.1 [104, 101, 108, 108, 111] [104, 101, 108, 108, 111] rfl

end Compilers
